import Mathlib

/-!
Verification of the NAGP1250 VFD driver core (bit-reversal transport,
command framing, column-major bitmap packing, rasterizer) against its
natural-language specification.

The Python driver is shallowly embedded: integer parameters of the
command builders are modelled as `Int` (Python integers are signed and
unbounded); byte payloads as `List Nat`; code that raises `ValueError`
is modelled as `Except VfdError`; the out-of-bounds list accesses that
would raise `IndexError` are modelled with `Option`.  Python `x & 0xFF`
on an arbitrary integer equals `x % 256` with a non-negative remainder,
and `x >> 8` is a floor shift, so these are rendered as `% 256` and
`/ 256` on `Int` (Lean's `%` and `/` on `Int` are Euclidean, which
agrees with Python's semantics for the positive moduli used here).
-/

namespace NAGP1250

/-- Errors raised by the driver.  The source raises `ValueError` in every
case; the two constructors record which check fired, matching the error
taxonomy of the specification (`InvalidParameter` for a range check,
`PayloadLengthMismatch` for the image-payload length check, which has a
distinct message in the source). -/
inductive VfdError where
  | invalidParameter
  | payloadLengthMismatch
deriving DecidableEq

/-- Inner loop of the module-level `REVERSE_TABLE` construction: starting
from `result = 0`, eight times shift `result` left and append the least
significant bit of the byte, shifting the byte right. -/
def reverse_byte (i : Nat) : Nat :=
  ((List.range 8).foldl
    (fun (p : Nat × Nat) _ => ((p.1 <<< 1) ||| (p.2 &&& 1), p.2 >>> 1))
    (0, i)).1

/-- The module-level lookup table reversing the bits of every 8-bit value. -/
def REVERSE_TABLE : List Nat := (List.range 256).map reverse_byte

/-- Loop body of `send_bytes`: each item must be in 0–65535; an 8-bit item
appends its bit-reversed value, a 16-bit item appends the bit-reversed low
byte then the bit-reversed high byte.  `out` is the accumulator bytearray. -/
def send_bytes_loop : List Int → List Nat → Except VfdError (List Nat)
  | [], out => .ok out
  | item :: rest, out =>
    if item < 0 ∨ 65535 < item then .error .invalidParameter
    else if item ≤ 255 then
      send_bytes_loop rest (out ++ [REVERSE_TABLE.getD item.toNat 0])
    else
      send_bytes_loop rest
        (out ++ [REVERSE_TABLE.getD ((item % 256).toNat) 0,
                 REVERSE_TABLE.getD ((item / 256 % 256).toNat) 0])

/-- `send_bytes`: pre-flips the data through `REVERSE_TABLE` (the SPI
peripheral cannot transmit LSB-first) and returns the single buffer that
is written to the bus by the one `spi.write` call at the end. -/
def send_bytes (data : List Int) : Except VfdError (List Nat) :=
  send_bytes_loop data []

/-- Geometry state of the driver object: `self.width` and `self.height`,
set by `__init__` and `define_base_window`. -/
structure DisplayGeom where
  width : Int
  height : Int
deriving DecidableEq

/-- `define_base_window(mode)`: validates `mode` in 0–1, updates the
stored geometry (140x32 for base, 256x32 for extended) and returns the
command frame together with the new geometry. -/
def define_base_window (mode : Int) : Except VfdError (DisplayGeom × List Int) :=
  if ¬(0 ≤ mode ∧ mode ≤ 1) then .error .invalidParameter
  else if mode = 0 then .ok (⟨140, 32⟩, [0x1F, 0x28, 0x77, 0x10, mode])
  else .ok (⟨256, 32⟩, [0x1F, 0x28, 0x77, 0x10, mode])

/-- `set_cursor_position(x, y)`: validates `x` in 0–255 and `y` in 0–3
(the method reads nothing from the driver state — the geometry argument
is unused, exactly as in the source) and builds the frame with x and y
as little-endian byte pairs. -/
def set_cursor_position (_g : DisplayGeom) (x y : Int) : Except VfdError (List Int) :=
  if ¬(0 ≤ x ∧ x ≤ 255) then .error .invalidParameter
  else if ¬(0 ≤ y ∧ y ≤ 3) then .error .invalidParameter
  else .ok [0x1F, 0x24, x % 256, x / 256 % 256, y % 256, y / 256 % 256]

/-- `define_user_window(window_num, x, y, w, h)`: the three validation
checks exactly as written in the source — note the second and third use
`or` between the two range conditions — followed by the window-define
frame with four little-endian byte pairs. -/
def define_user_window (window_num x y w h : Int) : Except VfdError (List Int) :=
  if ¬(1 ≤ window_num ∧ window_num ≤ 4) then .error .invalidParameter
  else if ¬((0 ≤ x ∧ x ≤ 279) ∨ (0 ≤ y ∧ y ≤ 3)) then .error .invalidParameter
  else if ¬((1 ≤ w ∧ w ≤ 280) ∨ (1 ≤ h ∧ h ≤ 4)) then .error .invalidParameter
  else .ok ([0x1F, 0x28, 0x77, 0x02] ++ [window_num] ++ [0x01] ++
    [x % 256, x / 256 % 256] ++ [y % 256, y / 256 % 256] ++
    [w % 256, w / 256 % 256] ++ [h % 256, h / 256 % 256])

/-- `display_realtime_image(image_data, width, height)`: width must be
1–256, height divisible by 8 and 1–32, and the payload length must equal
`width * (height // 8)`; then the image-transfer frame is the 4-byte
command, width and byte-row count as little-endian pairs, the fixed mode
byte 1, and the payload. -/
def display_realtime_image (image_data : List Int) (width height : Int) :
    Except VfdError (List Int) :=
  if ¬(1 ≤ width ∧ width ≤ 256) then .error .invalidParameter
  else if height % 8 ≠ 0 ∨ ¬(1 ≤ height ∧ height ≤ 32) then .error .invalidParameter
  else
    let byte_rows : Int := height / 8
    let expected : Int := width * byte_rows
    if (image_data.length : Int) ≠ expected then .error .payloadLengthMismatch
    else .ok ([0x1F, 0x28, 0x66, 0x11,
      width % 256, width / 256 % 256,
      byte_rows % 256, byte_rows / 256 % 256,
      1] ++ image_data)

/-! ### Transport traces

A traced operation returns the list of buffers written to the SPI bus
(each `spi.write` contributes one buffer) together with the error, if
any, that aborted it.  `send_bytes` performs its single write only after
the whole output buffer has been assembled, so an error inside its loop
produces no write at all. -/

/-- Trace of `send_bytes`: one bus write of the assembled buffer on
success, no write when the loop raises. -/
def send_bytes_tr (data : List Int) : List (List Nat) × Option VfdError :=
  match send_bytes data with
  | .ok out => ([out], none)
  | .error e => ([], some e)

/-- Runs a command builder through the transport: a validation error
produces no bus write; an assembled frame is handed to `send_bytes`. -/
def runFrame (fr : Except VfdError (List Int)) : List (List Nat) × Option VfdError :=
  match fr with
  | .error e => ([], some e)
  | .ok frame => send_bytes_tr frame

/-- Traced `define_user_window`. -/
def define_user_window_tr (window_num x y w h : Int) : List (List Nat) × Option VfdError :=
  runFrame (define_user_window window_num x y w h)

/-- Traced `display_realtime_image`. -/
def display_realtime_image_tr (image_data : List Int) (width height : Int) :
    List (List Nat) × Option VfdError :=
  runFrame (display_realtime_image image_data width height)

/-- Traced `set_cursor_position`. -/
def set_cursor_position_tr (g : DisplayGeom) (x y : Int) : List (List Nat) × Option VfdError :=
  runFrame (set_cursor_position g x y)

/-! ### Bitmap packing

`pack_bitmap` reads `bitmap[y][x]` inside its innermost loop.  A Python
list access out of range raises `IndexError`, so the packer is embedded
with `Option`: a `none` result marks the `IndexError` path.  Bitmap
cells are natural numbers; the source tests them for truthiness
(`if bitmap[y][x]:`), rendered as `≠ 0`. -/

/-- The access `bitmap[y][x]`: `none` when either index is out of range
(Python `IndexError`). -/
def bitGet (bitmap : List (List Nat)) (y x : Nat) : Option Nat :=
  bitmap[y]?.bind (fun row => row[x]?)

/-- Python `range(0, height, 8)`: the starting rows of the 8-pixel bands. -/
def byteRowStarts (height : Nat) : List Nat :=
  (List.range ((height + 7) / 8)).map (fun k => k * 8)

/-- Innermost loop of `pack_bitmap`: build one packed byte for column `x`
of the band starting at row `byteRow`, bit `7 - bit` of the byte taken
from row `byteRow + bit`. -/
def packByte (bitmap : List (List Nat)) (x byteRow : Nat) : Option Nat :=
  (List.range 8).foldlM
    (fun byte bit =>
      (bitGet bitmap (byteRow + bit) x).map
        (fun v => if v ≠ 0 then byte ||| (1 <<< (7 - bit)) else byte))
    0

/-- `pack_bitmap(bitmap, width, height)`: columns outer, 8-row bands
inner, appending one byte per band to the packed output. -/
def pack_bitmap (bitmap : List (List Nat)) (width height : Nat) : Option (List Nat) :=
  (List.range width).foldlM
    (fun packed x =>
      (byteRowStarts height).foldlM
        (fun packed byteRow =>
          (packByte bitmap x byteRow).map (fun b => packed ++ [b]))
        packed)
    []

/-- Pure value of one packed byte, defined only for in-range bands; used
to state the closed form of a successful `pack_bitmap` run. -/
def byteAt (bitmap : List (List Nat)) (x byteRow : Nat) : Nat :=
  (List.range 8).foldl
    (fun byte bit =>
      if (bitmap.getD (byteRow + bit) []).getD x 0 ≠ 0
      then byte ||| (1 <<< (7 - bit)) else byte)
    0

/-- Closed form of the packed output for a well-shaped bitmap: for each
column, the bytes of its bands in order. -/
def packPure (bitmap : List (List Nat)) (width height : Nat) : List Nat :=
  (List.range width).flatMap (fun x => (byteRowStarts height).map (byteAt bitmap x))

/-- Modelled from the spec: the reference column-major unpacker (the spec
names it only as "a reference unpack" — it has no implementation in the
repository).  Cell `(y, x)` is bit `7 - y % 8` of byte `x * (h/8) + y/8`
of the packed stream: columns outer, then 8-row bands, bit 7 of a byte
being the topmost row of its band. -/
def unpack_ref (packed : List Nat) (width height : Nat) : List (List Nat) :=
  (List.range height).map (fun y =>
    (List.range width).map (fun x =>
      if (packed.getD (x * (height / 8) + y / 8) 0).testBit (7 - y % 8)
      then 1 else 0))

/-! ### Rasterizer -/

/-- The all-zero pixel buffer of the given dimensions. -/
def zeroBm (width height : Nat) : List (List Nat) :=
  List.replicate height (List.replicate width 0)

/-- The `plot` helper shared by the drawing primitives: set
`bitmap[py][px] = 1` when the point is inside the canvas, otherwise do
nothing (silent clipping). -/
def setPix (bm : List (List Nat)) (width height : Nat) (px py : Int) : List (List Nat) :=
  if 0 ≤ px ∧ px < (width : Int) ∧ 0 ≤ py ∧ py < (height : Int) then
    bm.set py.toNat ((bm.getD py.toNat []).set px.toNat 1)
  else bm

/-- Reads pixel `(px, py)` of a buffer, 0 outside the stored lists. -/
def getPix (bm : List (List Nat)) (px py : Int) : Nat :=
  if 0 ≤ px ∧ 0 ≤ py then (bm.getD py.toNat []).getD px.toNat 0 else 0

/-- The eight symmetric plots of one iteration of the midpoint circle
loop, in source order (octants 1 through 8). -/
def plot8 (bm : List (List Nat)) (width height : Nat) (cx cy x y : Int) : List (List Nat) :=
  setPix (setPix (setPix (setPix (setPix (setPix (setPix (setPix
    bm width height (cx + x) (cy + y))
       width height (cx + y) (cy + x))
       width height (cx - y) (cy + x))
       width height (cx - x) (cy + y))
       width height (cx - x) (cy - y))
       width height (cx - y) (cy - x))
       width height (cx + y) (cy - x))
       width height (cx + x) (cy - y)

/-- The `while x >= y` loop of `draw_graphic_circle`: plot the eight
octant points, step `y` down, and update the decision variable, moving
`x` inward when the midpoint falls outside the circle.  The loop
decreases `x + 1 - y` by at least one per iteration, so it is embedded
with a structural fuel argument; `circleLoop_fuel` below shows the
result does not depend on the fuel once it covers that measure, so the
fuelled loop agrees with the source's unbounded `while`. -/
def circleLoop : Nat → List (List Nat) → Int → Int → Nat → Nat →
    Int → Int → Int → List (List Nat)
  | 0, bm, _, _, _, _, _, _, _ => bm
  | fuel + 1, bm, cx, cy, width, height, x, y, d =>
    if y ≤ x then
      let bm1 := plot8 bm width height cx cy x y
      if d < 0 then
        circleLoop fuel bm1 cx cy width height x (y + 1) (d + 2 * (y + 1) + 1)
      else
        circleLoop fuel bm1 cx cy width height (x - 1) (y + 1)
          (d + 2 * ((y + 1) - (x - 1)) + 1)
    else bm

/-- The fuelled circle loop is insensitive to the fuel as soon as the
fuel dominates the loop variant `x + 1 - y`: this is the adequacy of the
fuelled embedding of the source's `while x >= y` loop. -/
theorem circleLoop_fuel (f1 f2 : Nat) (bm : List (List Nat)) (cx cy : Int)
    (width height : Nat) (x y d : Int)
    (h1 : (x + 1 - y).toNat ≤ f1) (h2 : (x + 1 - y).toNat ≤ f2) :
    circleLoop f1 bm cx cy width height x y d =
      circleLoop f2 bm cx cy width height x y d := by
  induction f1 generalizing f2 bm x y d with
  | zero =>
    have hyx : ¬ y ≤ x := by omega
    cases f2 with
    | zero => rfl
    | succ f2 => simp [circleLoop, hyx]
  | succ f1 ih =>
    cases f2 with
    | zero =>
      have hyx : ¬ y ≤ x := by omega
      simp [circleLoop, hyx]
    | succ f2 =>
      by_cases hyx : y ≤ x
      · simp only [circleLoop, if_pos hyx]
        by_cases hd : d < 0
        · rw [if_pos hd, if_pos hd, ih]
          all_goals omega
        · rw [if_neg hd, if_neg hd, ih]
          all_goals omega
      · simp [circleLoop, hyx]

/-- `draw_graphic_circle(bitmap, cx, cy, radius, width, height)`:
midpoint circle algorithm starting at the far right of the circle; the
fuel `radius.toNat + 2` dominates the initial loop variant
`radius + 1 - 0`. -/
def draw_graphic_circle (bm : List (List Nat)) (cx cy radius : Int)
    (width height : Nat) : List (List Nat) :=
  circleLoop (radius.toNat + 2) bm cx cy width height radius 0 (1 - radius)

/-- Python's `round` (round half to even) on an exact rational, composed
with `int(...)`, as used by `draw_graphic_lines`. -/
def pyRound (q : ℚ) : Int :=
  let f : Int := q.floor
  let r : ℚ := q - (f : ℚ)
  if r < 1 / 2 then f
  else if 1 / 2 < r then f + 1
  else if f % 2 = 0 then f else f + 1

/-- `draw_graphic_lines(bitmap, lines, width, height)`.  A line spec in
the source is `(x0, y0, angle_deg, length)` and the walk uses the
floating-point direction `(cos angle, -sin angle)`; the embedding takes
that direction as an exact rational pair `(degX, degY)` in the spec
tuple.  At the axis-aligned angles exercised by the specification the
floating-point cosine and sine are exact (`cos 0 = 1.0`, `sin 0 = 0.0`),
so the rational walk coincides with the source's float walk there.  Each
step plots `(round(x0 + degX * i), round(y0 + degY * i))` with silent
clipping. -/
def draw_graphic_lines (bm : List (List Nat))
    (lines : List (Int × Int × ℚ × ℚ × Nat)) (width height : Nat) : List (List Nat) :=
  lines.foldl
    (fun bm spec =>
      match spec with
      | (x0, y0, degX, degY, len) =>
        (List.range len).foldl
          (fun bm (i : Nat) =>
            setPix bm width height
              (pyRound ((x0 : ℚ) + degX * (i : ℚ)))
              (pyRound ((y0 : ℚ) + degY * (i : ℚ))))
          bm)
    bm

/-! ### Generic helper lemmas -/

instance instDecEqExcept {e a : Type} [DecidableEq e] [DecidableEq a] :
    DecidableEq (Except e a) :=
  fun x y =>
    match x, y with
    | .ok v, .ok w =>
      if h : v = w then isTrue (by rw [h])
      else isFalse (by intro hc; cases hc; exact h rfl)
    | .error v, .error w =>
      if h : v = w then isTrue (by rw [h])
      else isFalse (by intro hc; cases hc; exact h rfl)
    | .ok _, .error _ => isFalse (by intro hc; cases hc)
    | .error _, .ok _ => isFalse (by intro hc; cases hc)

/-- An `Option`-valued left fold is `none` whenever the list contains an
element on which the step function fails for every accumulator. -/
theorem foldlM_eq_none {α β : Type} (f : β → α → Option β) (l : List α) (a : α)
    (ha : a ∈ l) (hfa : ∀ acc, f acc a = none) :
    ∀ init, l.foldlM f init = none := by
  induction l with
  | nil => cases ha
  | cons b t ih =>
    intro init
    rw [List.foldlM_cons]
    cases hb : f init b with
    | none => rfl
    | some acc2 =>
      have hat : a ∈ t := by
        rcases List.mem_cons.mp ha with h | h
        · subst h; rw [hfa init] at hb; cases hb
        · exact h
      exact ih hat acc2

/-! ### Claim theorems -/

/-- A list element read through `getD` with an in-range index is a
member of the list. -/
theorem getD_mem_of_lt {α : Type} (l : List α) (n : Nat) (d : α) (h : n < l.length) :
    l.getD n d ∈ l := by
  rw [List.getD_eq_getElem?_getD]
  cases hg : l[n]? with
  | none => rw [List.getElem?_eq_none_iff] at hg; omega
  | some v =>
    have := List.getElem?_mem hg
    simpa using this

/-- An in-range optional read is `some` of the `getD` read. -/
theorem getElem?_eq_some_getD {α : Type} (l : List α) (n : Nat) (d : α)
    (h : n < l.length) : l[n]? = some (l.getD n d) := by
  rw [List.getD_eq_getElem?_getD]
  cases hg : l[n]? with
  | none => rw [List.getElem?_eq_none_iff] at hg; omega
  | some v => rfl

/-- Reading an appended list to the left of the seam. -/
theorem getD_append_left {α : Type} (l1 l2 : List α) (n : Nat) (d : α)
    (h : n < l1.length) : (l1 ++ l2).getD n d = l1.getD n d := by
  rw [List.getD_eq_getElem?_getD, List.getD_eq_getElem?_getD,
    List.getElem?_append, if_pos h]

/-- Reading an appended list to the right of the seam. -/
theorem getD_append_right {α : Type} (l1 l2 : List α) (n : Nat) (d : α)
    (h : l1.length ≤ n) : (l1 ++ l2).getD n d = l2.getD (n - l1.length) d := by
  rw [List.getD_eq_getElem?_getD, List.getD_eq_getElem?_getD,
    List.getElem?_append, if_neg (by omega)]

/-- Reading a mapped range at an in-range index. -/
theorem getD_map_range {α : Type} (g : Nat → α) (n k : Nat) (d : α) (hk : k < n) :
    ((List.range n).map g).getD k d = g k := by
  rw [List.getD_eq_getElem?_getD, List.getElem?_map, List.getElem?_range hk]
  rfl

/-- An `Option`-valued left fold whose steps all succeed computes the
corresponding pure left fold. -/
theorem foldlM_eq_foldl_some {α β : Type} (F : β → α → Option β) (G : β → α → β)
    (l : List α) (h : ∀ a ∈ l, ∀ acc, F acc a = some (G acc a)) :
    ∀ init, l.foldlM F init = some (l.foldl G init) := by
  induction l with
  | nil => intro init; rfl
  | cons b t ih =>
    intro init
    rw [List.foldlM_cons, h b (by simp) init]
    exact ih (fun a ha acc => h a (by simp [ha]) acc) (G init b)

/-- An `Option`-valued left fold whose every step appends a block to the
accumulator produces the concatenation of all blocks. -/
theorem foldlM_append_blocks {α β : Type} (F : List β → α → Option (List β))
    (B : α → List β) (l : List α)
    (h : ∀ a ∈ l, ∀ acc, F acc a = some (acc ++ B a)) :
    ∀ init, l.foldlM F init = some (init ++ l.flatMap B) := by
  induction l with
  | nil => intro init; simp
  | cons b t ih =>
    intro init
    rw [List.foldlM_cons, h b (by simp) init]
    show t.foldlM F (init ++ B b) = _
    rw [ih (fun a ha acc => h a (by simp [ha]) acc) (init ++ B b)]
    simp

/-- Mapping into singleton blocks and flattening is mapping. -/
theorem flatMap_singleton_eq_map {α β : Type} (f : α → β) (l : List α) :
    l.flatMap (fun a => [f a]) = l.map f := by
  induction l with
  | nil => rfl
  | cons a t ih => simp [ih]

/-- On a bitmap with at least `byteRow + 8` rows, each of width at least
`x + 1`, the fallible packed-byte computation succeeds and computes the
pure `byteAt`. -/
theorem packByte_eq (bm : List (List Nat)) (w h x b : Nat)
    (hlen : bm.length = h) (hrows : ∀ row ∈ bm, row.length = w)
    (hx : x < w) (hb : b + 7 < h) :
    packByte bm x b = some (byteAt bm x b) := by
  unfold packByte byteAt
  apply foldlM_eq_foldl_some
  intro bit hbit acc
  have hbit8 : bit < 8 := List.mem_range.mp hbit
  have hyl : b + bit < bm.length := by omega
  have hrowlen : (bm.getD (b + bit) []).length = w :=
    hrows _ (getD_mem_of_lt bm (b + bit) [] hyl)
  rw [bitGet, getElem?_eq_some_getD bm (b + bit) [] hyl, Option.some_bind,
    getElem?_eq_some_getD (bm.getD (b + bit) []) x 0 (by omega)]
  rfl

/-- Every 8-row band start of a height divisible by 8 leaves room for a
whole band: successful packing therefore computes the pure closed form
`packPure`, column blocks in order. -/
theorem pack_bitmap_eq_packPure (bm : List (List Nat)) (w h : Nat)
    (hlen : bm.length = h) (hrows : ∀ row ∈ bm, row.length = w)
    (h8 : h % 8 = 0) :
    pack_bitmap bm w h = some (packPure bm w h) := by
  unfold pack_bitmap packPure
  have houter : ∀ x ∈ List.range w, ∀ acc : List Nat,
      (byteRowStarts h).foldlM
        (fun packed byteRow =>
          (packByte bm x byteRow).map (fun bb => packed ++ [bb])) acc =
        some (acc ++ (byteRowStarts h).map (byteAt bm x)) := by
    intro x hx acc
    have hx2 : x < w := List.mem_range.mp hx
    rw [← flatMap_singleton_eq_map (byteAt bm x) (byteRowStarts h)]
    apply foldlM_append_blocks
    intro b hbmem acc2
    obtain ⟨k, hk, rfl⟩ := List.mem_map.mp hbmem
    have hk2 : k < (h + 7) / 8 := List.mem_range.mp hk
    rw [packByte_eq bm w h x (k * 8) hlen hrows hx2 (by omega)]
    rfl
  exact foldlM_append_blocks _ _ _ houter []

/-- The length of a uniform-block flattening. -/
theorem length_flatMap_uniform {α : Type} (L : Nat → List α) (m : Nat)
    (hm : ∀ i, (L i).length = m) (n : Nat) :
    ((List.range n).flatMap L).length = n * m := by
  induction n with
  | zero => simp
  | succ n ih =>
    rw [List.range_succ, List.flatMap_append, List.length_append, ih]
    simp [hm]
    ring

/-- Indexing a flattening of uniform-length blocks: entry `i * m + j`
lives in block `i` at offset `j`. -/
theorem getD_flatMap_uniform {α : Type} (L : Nat → List α) (m : Nat) (d : α)
    (hm : ∀ i, (L i).length = m) :
    ∀ n i j, i < n → j < m →
      ((List.range n).flatMap L).getD (i * m + j) d = (L i).getD j d := by
  intro n
  induction n with
  | zero => intro i j hi _; omega
  | succ n ih =>
    intro i j hi hj
    rw [List.range_succ, List.flatMap_append]
    have hlen : ((List.range n).flatMap L).length = n * m :=
      length_flatMap_uniform L m hm n
    rcases Nat.lt_or_ge i n with hin | hin
    · have hidx : i * m + j < n * m := by
        calc i * m + j < (i + 1) * m := by
              have := hj
              nlinarith
          _ ≤ n * m := Nat.mul_le_mul_right m (by omega)
      rw [getD_append_left _ _ _ _ (by omega), ih i j hin hj]
    · have hieq : i = n := by omega
      subst hieq
      rw [getD_append_right _ _ _ _ (by omega)]
      simp only [List.flatMap_cons, List.flatMap_nil, List.append_nil, hlen]
      congr 1
      omega

/-- Bit `j` of the bit-accumulating fold used by `byteAt`: it is set iff
it was set in the accumulator or some processed bit position `bit` has a
nonzero cell and lands on `j = 7 - bit`. -/
theorem testBit_setFold (f : Nat → Nat) (l : List Nat) :
    ∀ (acc j : Nat),
      ((l.foldl (fun byte bit =>
          if f bit ≠ 0 then byte ||| (1 <<< (7 - bit)) else byte) acc).testBit j
        = true ↔
      (acc.testBit j = true ∨ ∃ bit ∈ l, f bit ≠ 0 ∧ 7 - bit = j)) := by
  induction l with
  | nil => intro acc j; simp
  | cons bh t ih =>
    intro acc j
    rw [List.foldl_cons, ih]
    have hstep : ((if f bh ≠ 0 then acc ||| (1 <<< (7 - bh)) else acc).testBit j = true ↔
        (acc.testBit j = true ∨ (f bh ≠ 0 ∧ 7 - bh = j))) := by
      by_cases hf : f bh ≠ 0
      · rw [if_pos hf, Nat.shiftLeft_eq, one_mul, Nat.testBit_lor]
        by_cases hjb : 7 - bh = j
        · rw [← hjb, Nat.testBit_two_pow_self]
          simp [hf, hjb]
        · rw [Nat.testBit_two_pow_of_ne hjb]
          simp [hf, hjb]
      · rw [if_neg hf]
        simp [hf]
    rw [hstep]
    constructor
    · rintro (⟨ha | ⟨hne, hj⟩⟩ | ⟨bit, hbit, hne, hj⟩)
      · exact Or.inl ha
      · exact Or.inr ⟨bh, by simp, hne, hj⟩
      · exact Or.inr ⟨bit, by simp [hbit], hne, hj⟩
    · rintro (ha | ⟨bit, hbit, hne, hj⟩)
      · exact Or.inl (Or.inl ha)
      · rcases List.mem_cons.mp hbit with hbh | hbt
        · exact Or.inl (Or.inr ⟨hbh ▸ hne, hbh ▸ hj⟩)
        · exact Or.inr ⟨bit, hbt, hne, hj⟩

/-- Bit `7 - r` of the packed band byte is the cell of row
`byteRow + r`. -/
theorem testBit_byteAt (bm : List (List Nat)) (x b r : Nat) (hr : r < 8) :
    ((byteAt bm x b).testBit (7 - r) = true ↔
      (bm.getD (b + r) []).getD x 0 ≠ 0) := by
  unfold byteAt
  rw [testBit_setFold (fun bit => (bm.getD (b + bit) []).getD x 0)
    (List.range 8) 0 (7 - r)]
  simp only [Nat.zero_testBit, Bool.false_eq_true, false_or, List.mem_range]
  constructor
  · rintro ⟨bit, hbit, hne, heq⟩
    have : bit = r := by omega
    subst this
    exact hne
  · intro hc
    exact ⟨r, hr, hc, rfl⟩

/-- A list is the range-indexed map of its own reads. -/
theorem map_getD_range {α : Type} (l : List α) (d : α) :
    (List.range l.length).map (fun i => l.getD i d) = l := by
  induction l with
  | nil => rfl
  | cons a t ih =>
    rw [List.length_cons, List.range_succ_eq_map, List.map_cons, List.map_map]
    have hcomp : ((fun i => (a :: t).getD i d) ∘ Nat.succ) = (fun i => t.getD i d) := rfl
    rw [hcomp, ih]
    rfl

/-- Claim C3: for every bitmap whose height is a multiple of 8, with
exactly `height` rows of exactly `width` 0/1 cells each, `pack_bitmap`
succeeds and the reference column-major unpacker inverts it: pack
followed by unpack is the identity on the bitmap. -/
theorem C3_pack_unpack_roundtrip (bm : List (List Nat)) (w h : Nat)
    (h8 : h % 8 = 0) (hlen : bm.length = h)
    (hrows : ∀ row ∈ bm, row.length = w)
    (hcells : ∀ row ∈ bm, ∀ c ∈ row, c = 0 ∨ c = 1) :
    ∃ p, pack_bitmap bm w h = some p ∧ unpack_ref p w h = bm := by
  refine ⟨packPure bm w h, pack_bitmap_eq_packPure bm w h hlen hrows h8, ?_⟩
  unfold unpack_ref
  have hrec : (List.range h).map (fun y => bm.getD y []) = bm := by
    rw [← hlen]
    exact map_getD_range bm []
  refine Eq.trans (List.map_congr_left ?_) hrec
  intro y hy
  have hy2 : y < h := List.mem_range.mp hy
  have hrowmem : bm.getD y [] ∈ bm := getD_mem_of_lt bm y [] (by omega)
  have hrowlen : (bm.getD y []).length = w := hrows _ hrowmem
  have hrec2 : (List.range w).map (fun x => (bm.getD y []).getD x 0) = bm.getD y [] := by
    rw [← hrowlen]
    exact map_getD_range (bm.getD y []) 0
  refine Eq.trans (List.map_congr_left ?_) hrec2
  intro x hx
  have hx2 : x < w := List.mem_range.mp hx
  have hmlen : ∀ i, ((byteRowStarts h).map (byteAt bm i)).length = h / 8 := by
    intro i
    simp [byteRowStarts]
    omega
  have hgetp : (packPure bm w h).getD (x * (h / 8) + y / 8) 0 =
      byteAt bm x (y / 8 * 8) := by
    unfold packPure
    rw [getD_flatMap_uniform (fun i => (byteRowStarts h).map (byteAt bm i))
      (h / 8) 0 hmlen w x (y / 8) hx2 (by omega)]
    unfold byteRowStarts
    rw [List.map_map,
      getD_map_range (byteAt bm x ∘ fun k => k * 8) ((h + 7) / 8) (y / 8) 0 (by omega)]
    rfl
  rw [hgetp]
  have hbit := testBit_byteAt bm x (y / 8 * 8) (y % 8) (by omega)
  rw [show y / 8 * 8 + y % 8 = y from by omega] at hbit
  have hcellmem : (bm.getD y []).getD x 0 ∈ bm.getD y [] :=
    getD_mem_of_lt (bm.getD y []) x 0 (by omega)
  rcases hcells _ hrowmem _ hcellmem with hc | hc
  · have : ¬ ((byteAt bm x (y / 8 * 8)).testBit (7 - y % 8) = true) := by
      rw [hbit, hc]
      simp
    simp only [Bool.not_eq_true] at this
    rw [this, if_neg (by simp), hc]
  · rw [if_pos (hbit.mpr (by rw [hc]; exact one_ne_zero)), hc]

/-- Claim C3 (witness): a concrete 2-wide, 8-high bitmap round-trips
through pack and the reference unpack. -/
theorem C3_pack_unpack_roundtrip_witness :
    ∃ p, pack_bitmap [[1, 0], [1, 0], [1, 0], [1, 0], [0, 1], [0, 1], [0, 1], [0, 1]]
        2 8 = some p ∧
      unpack_ref p 2 8 =
        [[1, 0], [1, 0], [1, 0], [1, 0], [0, 1], [0, 1], [0, 1], [0, 1]] :=
  C3_pack_unpack_roundtrip
    [[1, 0], [1, 0], [1, 0], [1, 0], [0, 1], [0, 1], [0, 1], [0, 1]] 2 8
    (by decide) (by decide) (by decide) (by decide)

/-- Claim C1 (code bug): `define_user_window` joins its coordinate range
checks with `or` instead of `and`, so a call whose `x` is far outside
the documented domain 0–279 is accepted whenever `y` is in range: at the
failing input `(window_num, x, y, w, h) = (1, 1000, 0, 1, 1)` the call
raises nothing and frames and sends the window-define command, although
the claim (and the method docstring) require `InvalidParameter`. -/
theorem C1_define_user_window_accepts_out_of_range_x :
    define_user_window 1 1000 0 1 1 =
      .ok [0x1F, 0x28, 0x77, 0x02, 1, 0x01, 0xE8, 0x03, 0, 0, 1, 0, 1, 0] := by
  decide

/-- Claim C2 (counterexample): on the 1-wide, 4-high all-zero bitmap —
whose height is not a multiple of 8 — `pack_bitmap` does not return the
claimed width * ceil(height/8) = 1 padded bytes; its band loop reads row
indices 4..7, past the end of the bitmap, which in the source raises
`IndexError` (here: `none`). -/
theorem C2_pack_bitmap_raises_on_partial_band :
    pack_bitmap [[0], [0], [0], [0]] 1 4 = none := by
  decide

/-- Claim C2 (amended): for every bitmap with exactly `height` rows where
`height` is not a multiple of 8 and `width ≥ 1`, `pack_bitmap` reads the
bitmap outside rows `[0, height-1]` — the inner bit loop of the last
8-row band always runs to row `8 * (height / 8) + 7 ≥ height` — so the
call raises `IndexError` instead of padding the missing rows with zero
bits. -/
theorem C2_pack_bitmap_index_error_of_not_div8
    (bm : List (List Nat)) (w h : Nat)
    (hw : 0 < w) (hh8 : h % 8 ≠ 0) (hlen : bm.length = h) :
    pack_bitmap bm w h = none := by
  unfold pack_bitmap
  apply foldlM_eq_none _ _ 0 (by simpa [List.mem_range] using hw)
  intro acc
  apply foldlM_eq_none _ _ (h / 8 * 8)
  · unfold byteRowStarts
    exact List.mem_map.mpr ⟨h / 8, by simp [List.mem_range]; omega, rfl⟩
  · intro acc2
    have hnone : packByte bm 0 (h / 8 * 8) = none := by
      unfold packByte
      apply foldlM_eq_none _ _ 7 (by decide)
      intro byte
      have hg : bm[h / 8 * 8 + 7]? = none := by
        rw [List.getElem?_eq_none_iff]
        omega
      simp [bitGet, hg]
    simp [hnone]

/-- Claim C2 (witness for the amended theorem): a concrete 2-wide,
2-high bitmap, height not divisible by 8. -/
theorem C2_pack_bitmap_index_error_witness :
    pack_bitmap [[1, 0], [0, 1]] 2 2 = none :=
  C2_pack_bitmap_index_error_of_not_div8 [[1, 0], [0, 1]] 2 2
    (by decide) (by decide) (by decide)

/-- Claim C4: packing the 16-wide, 8-high all-ones bitmap yields exactly
16 bytes of 0xFF, and `display_realtime_image` on that payload builds
the image-transfer frame: header 1F 28 66 11, little-endian width 16,
little-endian byte-row count 1, fixed mode byte 1, then the payload. -/
theorem C4_image_frame_16x8_all_ones :
    pack_bitmap (List.replicate 8 (List.replicate 16 1)) 16 8 =
      some (List.replicate 16 0xFF) ∧
    display_realtime_image (List.replicate 16 (0xFF : Int)) 16 8 =
      .ok ([0x1F, 0x28, 0x66, 0x11, 0x10, 0x00, 0x01, 0x00, 0x01] ++
        List.replicate 16 (0xFF : Int)) := by
  constructor
  · decide
  · decide

/-- Any framed operation run through the transport writes nothing when
it ends in an error: a builder error produces no write, and `send_bytes`
assembles its whole output buffer before its single bus write, raising
inside the loop before anything is written. -/
theorem runFrame_error_no_write (fr : Except VfdError (List Int))
    (h : (runFrame fr).2.isSome) : (runFrame fr).1 = [] := by
  cases fr with
  | error e => rfl
  | ok frame =>
    simp only [runFrame, send_bytes_tr] at h ⊢
    cases hs : send_bytes frame with
    | ok out => rw [hs] at h; simp at h
    | error e => rfl

/-- Claim C5: for each embedded operation — `send_bytes` itself,
`define_user_window`, `display_realtime_image` and
`set_cursor_position` — a call that raises a parameter error transmits
no byte on the bus: validation precedes frame construction and the
whole frame precedes the single transport write, so an error leaves the
write trace empty. -/
theorem C5_no_write_on_parameter_error :
    (∀ data, (send_bytes_tr data).2.isSome → (send_bytes_tr data).1 = []) ∧
    (∀ wn x y w h, (define_user_window_tr wn x y w h).2.isSome →
      (define_user_window_tr wn x y w h).1 = []) ∧
    (∀ img w h, (display_realtime_image_tr img w h).2.isSome →
      (display_realtime_image_tr img w h).1 = []) ∧
    (∀ g x y, (set_cursor_position_tr g x y).2.isSome →
      (set_cursor_position_tr g x y).1 = []) := by
  refine ⟨?_, ?_, ?_, ?_⟩
  · intro data h
    simp only [send_bytes_tr] at h ⊢
    cases hs : send_bytes data with
    | ok out => rw [hs] at h; simp at h
    | error e => rfl
  · intro wn x y w h
    exact runFrame_error_no_write _
  · intro img w h
    exact runFrame_error_no_write _
  · intro g x y
    exact runFrame_error_no_write _

/-- Claim C5 (witness): concrete erroring calls of each operation leave
an empty write trace. -/
theorem C5_no_write_witness :
    (send_bytes_tr [70000]).1 = [] ∧
    (define_user_window_tr 5 0 0 1 1).1 = [] ∧
    (display_realtime_image_tr [] 16 8).1 = [] ∧
    (set_cursor_position_tr ⟨140, 32⟩ 300 0).1 = [] :=
  ⟨C5_no_write_on_parameter_error.1 [70000] (by decide),
   C5_no_write_on_parameter_error.2.1 5 0 0 1 1 (by decide),
   C5_no_write_on_parameter_error.2.2.1 [] 16 8 (by decide),
   C5_no_write_on_parameter_error.2.2.2 ⟨140, 32⟩ 300 0 (by decide)⟩

/-- Claim C6: `display_realtime_image` errors exactly when width is
outside 1–256, height is not divisible by 8 or outside 1–32, or the
payload length differs from width * height/8; and whenever width and
height are in range, a wrong payload length yields precisely the
`PayloadLengthMismatch` error. -/
theorem C6_display_realtime_image_error_iff (img : List Int) (w ht : Int) :
    ((∃ e, display_realtime_image img w ht = .error e) ↔
      (w < 1 ∨ 256 < w ∨ ht % 8 ≠ 0 ∨ ht < 1 ∨ 32 < ht ∨
        (img.length : Int) ≠ w * (ht / 8))) ∧
    (display_realtime_image img w ht = .error .payloadLengthMismatch ↔
      (1 ≤ w ∧ w ≤ 256 ∧ ht % 8 = 0 ∧ 1 ≤ ht ∧ ht ≤ 32 ∧
        (img.length : Int) ≠ w * (ht / 8))) := by
  simp only [display_realtime_image]
  split_ifs with h1 h2 h3
  · refine ⟨⟨fun _ => ?_, fun _ => ⟨_, rfl⟩⟩, ⟨fun hc => by simp at hc, fun hr => ?_⟩⟩
    · rcases h2 with h2 | h2
      · exact Or.inr (Or.inr (Or.inl h2))
      · rcases not_and_or.mp h2 with hb | hb
        · exact Or.inr (Or.inr (Or.inr (Or.inl (by omega))))
        · exact Or.inr (Or.inr (Or.inr (Or.inr (Or.inl (by omega)))))
    · rcases h2 with h2 | h2
      · exact absurd hr.2.2.1 h2
      · exact absurd ⟨hr.2.2.2.1, hr.2.2.2.2.1⟩ h2
  · have h2a : ht % 8 = 0 ∧ 1 ≤ ht ∧ ht ≤ 32 := by push_neg at h2; exact h2
    exact ⟨⟨fun _ => Or.inr (Or.inr (Or.inr (Or.inr (Or.inr h3)))), fun _ => ⟨_, rfl⟩⟩,
      ⟨fun _ => ⟨h1.1, h1.2, h2a.1, h2a.2.1, h2a.2.2, h3⟩, fun _ => rfl⟩⟩
  · have h2a : ht % 8 = 0 ∧ 1 ≤ ht ∧ ht ≤ 32 := by push_neg at h2; exact h2
    have hlen : (img.length : Int) = w * (ht / 8) := by push_neg at h3; exact h3
    refine ⟨⟨fun he => ?_, fun hr => ?_⟩, ⟨fun hf => hf.elim, fun hr => absurd hlen hr.2.2.2.2.2⟩⟩
    · obtain ⟨e, f⟩ := he
      exact f.elim
    · exfalso
      rcases hr with hd | hd | hd | hd | hd | hd
      · exact absurd h1.1 (by omega)
      · exact absurd h1.2 (by omega)
      · exact hd h2a.1
      · exact absurd h2a.2.1 (by omega)
      · exact absurd h2a.2.2 (by omega)
      · exact hd hlen
  · refine ⟨⟨fun _ => ?_, fun _ => ⟨_, rfl⟩⟩,
      ⟨fun hc => by simp at hc, fun hr => absurd ⟨hr.1, hr.2.1⟩ h1⟩⟩
    rcases not_and_or.mp h1 with hw | hw
    · exact Or.inl (by omega)
    · exact Or.inr (Or.inl (by omega))

/-- When every item of the remaining data is a single byte, the
`send_bytes` loop extends the accumulated output with the bit-reversed
items, one output byte per item. -/
theorem send_bytes_loop_bytes (data : List Int) (out : List Nat)
    (hd : ∀ item ∈ data, 0 ≤ item ∧ item ≤ 255) :
    send_bytes_loop data out =
      .ok (out ++ data.map (fun item => REVERSE_TABLE.getD item.toNat 0)) := by
  induction data generalizing out with
  | nil => simp [send_bytes_loop]
  | cons a l ih =>
    obtain ⟨h0, h255⟩ := hd a (by simp)
    have h1 : ¬(a < 0 ∨ 65535 < a) := by omega
    rw [send_bytes_loop, if_neg h1, if_pos (by omega : a ≤ 255),
      ih _ (fun i hi => hd i (by simp [hi]))]
    simp

set_option maxRecDepth 20000

/-- Claim C8: `REVERSE_TABLE` has 256 entries; entry `b` is the exact
bit reversal of the byte `b` (an 8-bit value whose bit `j` is bit
`7 - j` of `b`); `send_bytes` on a list of byte-sized items writes the
same-length list of their bit reversals, in order; and a 16-bit item is
written as two bytes, the bit-reversed low byte first, then the
bit-reversed high byte. -/
theorem C8_reverse_table_and_send_bytes :
    REVERSE_TABLE.length = 256 ∧
    (∀ b, b < 256 → REVERSE_TABLE.getD b 0 < 256 ∧ ∀ j, j < 8 →
      (REVERSE_TABLE.getD b 0).testBit j = b.testBit (7 - j)) ∧
    (∀ data : List Int, (∀ item ∈ data, 0 ≤ item ∧ item ≤ 255) →
      send_bytes data =
        .ok (data.map (fun item => REVERSE_TABLE.getD item.toNat 0))) ∧
    (∀ item : Int, 256 ≤ item → item ≤ 65535 →
      send_bytes [item] =
        .ok [REVERSE_TABLE.getD (item % 256).toNat 0,
             REVERSE_TABLE.getD (item / 256 % 256).toNat 0]) := by
  refine ⟨by decide, by decide, ?_, ?_⟩
  · intro data hd
    simpa using send_bytes_loop_bytes data [] hd
  · intro item h256 h65535
    have h1 : ¬(item < 0 ∨ 65535 < item) := by omega
    have h2 : ¬(item ≤ 255) := by omega
    rw [send_bytes, send_bytes_loop, if_neg h1, if_neg h2]
    rfl

/-- Claim C8 (witness): the table reverses 1 to 128; `send_bytes` maps
the byte list `[1, 2]` to `[128, 64]` and the 16-bit item 258 to its
reversed low byte then reversed high byte, `[64, 128]`. -/
theorem C8_reverse_table_witness :
    ((REVERSE_TABLE.getD 1 0 < 256 ∧ ∀ j, j < 8 →
        (REVERSE_TABLE.getD 1 0).testBit j = Nat.testBit 1 (7 - j)) ∧
      send_bytes [1, 2] =
        .ok ([(1 : Int), 2].map (fun item => REVERSE_TABLE.getD item.toNat 0)) ∧
      send_bytes [258] =
        .ok [REVERSE_TABLE.getD ((258 : Int) % 256).toNat 0,
             REVERSE_TABLE.getD ((258 : Int) / 256 % 256).toNat 0]) ∧
    [(1 : Int), 2].map (fun item => REVERSE_TABLE.getD item.toNat 0) = [128, 64] ∧
    [REVERSE_TABLE.getD ((258 : Int) % 256).toNat 0,
     REVERSE_TABLE.getD ((258 : Int) / 256 % 256).toNat 0] = [64, 128] :=
  ⟨⟨C8_reverse_table_and_send_bytes.2.1 1 (by decide),
    C8_reverse_table_and_send_bytes.2.2.1 [1, 2] (by decide),
    C8_reverse_table_and_send_bytes.2.2.2 258 (by decide) (by decide)⟩,
   by decide, by decide⟩

/-! ### Rasterizer lemmas -/

/-- Reading a set list at the written index. -/
theorem getD_set_self_of_lt {α : Type} (l : List α) (n : Nat) (a d : α)
    (h : n < l.length) : (l.set n a).getD n d = a := by
  rw [List.getD_eq_getElem?_getD, List.getElem?_set_self h]
  rfl

/-- Reading a set list away from the written index. -/
theorem getD_set_ne {α : Type} (l : List α) (n m : Nat) (a d : α)
    (h : m ≠ n) : (l.set n a).getD m d = l.getD m d := by
  rw [List.getD_eq_getElem?_getD, List.getElem?_set_ne (by omega : n ≠ m),
    List.getD_eq_getElem?_getD]

/-- A well-shaped pixel buffer: `height` rows of `width` cells. -/
def Shape (bm : List (List Nat)) (width height : Nat) : Prop :=
  bm.length = height ∧ ∀ row ∈ bm, row.length = width

/-- `plot` keeps the buffer well shaped. -/
theorem shape_setPix (bm : List (List Nat)) (w h : Nat) (px py : Int)
    (hsh : Shape bm w h) : Shape (setPix bm w h px py) w h := by
  obtain ⟨hlen, hrows⟩ := hsh
  unfold setPix
  split_ifs with hin
  · refine ⟨by rw [List.length_set]; exact hlen, ?_⟩
    intro row hrow
    rcases List.mem_or_eq_of_mem_set hrow with hmem | heq
    · exact hrows _ hmem
    · subst heq
      rw [List.length_set]
      exact hrows _ (getD_mem_of_lt bm py.toNat [] (by omega))
  · exact ⟨hlen, hrows⟩

/-- `plot` sets the pixel it is given when that pixel is on the canvas. -/
theorem getPix_setPix_self (bm : List (List Nat)) (w h : Nat) (px py : Int)
    (hsh : Shape bm w h) (hpx0 : 0 ≤ px) (hpxw : px < (w : Int))
    (hpy0 : 0 ≤ py) (hpyh : py < (h : Int)) :
    getPix (setPix bm w h px py) px py = 1 := by
  obtain ⟨hlen, hrows⟩ := hsh
  unfold setPix getPix
  rw [if_pos (show 0 ≤ px ∧ 0 ≤ py from ⟨hpx0, hpy0⟩),
    if_pos (show 0 ≤ px ∧ px < (w : Int) ∧ 0 ≤ py ∧ py < (h : Int) from
      ⟨hpx0, hpxw, hpy0, hpyh⟩)]
  have h1 : py.toNat < bm.length := by omega
  rw [getD_set_self_of_lt bm py.toNat _ [] h1]
  have h2 : (bm.getD py.toNat []).length = w :=
    hrows _ (getD_mem_of_lt bm py.toNat [] h1)
  rw [getD_set_self_of_lt _ px.toNat _ 0 (by omega)]

/-- `plot` never clears a set pixel. -/
theorem getPix_setPix_mono (bm : List (List Nat)) (w h : Nat) (px py a b : Int)
    (hold : getPix bm a b = 1) : getPix (setPix bm w h px py) a b = 1 := by
  unfold setPix
  split_ifs with hin
  · unfold getPix at hold ⊢
    split_ifs at hold ⊢ with hab
    · by_cases hpylen : py.toNat < bm.length
      · by_cases hrow : b.toNat = py.toNat
        · rw [hrow] at hold ⊢
          rw [getD_set_self_of_lt bm py.toNat _ [] hpylen]
          by_cases hcol : a.toNat = px.toNat
          · by_cases hpxlen : px.toNat < (bm.getD py.toNat []).length
            · rw [hcol, getD_set_self_of_lt _ px.toNat 1 0 hpxlen]
            · rw [List.set_eq_of_length_le (by omega)]
              exact hold
          · rw [getD_set_ne _ px.toNat a.toNat 1 0 hcol]
            exact hold
        · rw [getD_set_ne bm py.toNat b.toNat _ [] hrow]
          exact hold
      · rw [List.set_eq_of_length_le (by omega)]
        exact hold
  · exact hold

/-- A pixel found set after `plot` is either the plotted point or was
already set. -/
theorem getPix_setPix_cases (bm : List (List Nat)) (w h : Nat) (px py a b : Int)
    (hres : getPix (setPix bm w h px py) a b = 1) :
    (a = px ∧ b = py) ∨ getPix bm a b = 1 := by
  unfold setPix at hres
  split_ifs at hres with hin
  · unfold getPix at hres ⊢
    split_ifs at hres ⊢ with hab
    · by_cases hpylen : py.toNat < bm.length
      · by_cases hrow : b.toNat = py.toNat
        · rw [hrow, getD_set_self_of_lt bm py.toNat _ [] hpylen] at hres
          by_cases hcol : a.toNat = px.toNat
          · exact Or.inl ⟨by omega, by omega⟩
          · rw [getD_set_ne _ px.toNat a.toNat 1 0 hcol] at hres
            right
            rw [hrow]
            exact hres
        · right
          rw [getD_set_ne bm py.toNat b.toNat _ [] hrow] at hres
          exact hres
      · right
        rw [List.set_eq_of_length_le (by omega)] at hres
        exact hres
  · exact Or.inr hres

/-- The eight octant plots keep the buffer well shaped. -/
theorem shape_plot8 (bm : List (List Nat)) (w h : Nat) (cx cy x y : Int)
    (hsh : Shape bm w h) : Shape (plot8 bm w h cx cy x y) w h := by
  unfold plot8
  apply shape_setPix
  apply shape_setPix
  apply shape_setPix
  apply shape_setPix
  apply shape_setPix
  apply shape_setPix
  apply shape_setPix
  apply shape_setPix
  exact hsh

/-- The eight octant plots never clear a set pixel. -/
theorem getPix_plot8_mono (bm : List (List Nat)) (w h : Nat) (cx cy x y a b : Int)
    (hold : getPix bm a b = 1) : getPix (plot8 bm w h cx cy x y) a b = 1 := by
  unfold plot8
  apply getPix_setPix_mono
  apply getPix_setPix_mono
  apply getPix_setPix_mono
  apply getPix_setPix_mono
  apply getPix_setPix_mono
  apply getPix_setPix_mono
  apply getPix_setPix_mono
  apply getPix_setPix_mono
  exact hold

/-- When the whole circle fits on the canvas (the current octant offsets
`0 ≤ y ≤ x ≤ r` and the centre margins bound every plotted point), the
eight octant plots all land and are set in the resulting buffer. -/
theorem getPix_plot8_sets (bm : List (List Nat)) (w h : Nat) (cx cy x y r : Int)
    (hsh : Shape bm w h) (hy0 : 0 ≤ y) (hyx : y ≤ x) (hxr : x ≤ r)
    (hcx1 : r ≤ cx) (hcx2 : cx + r < (w : Int))
    (hcy1 : r ≤ cy) (hcy2 : cy + r < (h : Int)) :
    getPix (plot8 bm w h cx cy x y) (cx + x) (cy + y) = 1 ∧
    getPix (plot8 bm w h cx cy x y) (cx + y) (cy + x) = 1 ∧
    getPix (plot8 bm w h cx cy x y) (cx - y) (cy + x) = 1 ∧
    getPix (plot8 bm w h cx cy x y) (cx - x) (cy + y) = 1 ∧
    getPix (plot8 bm w h cx cy x y) (cx - x) (cy - y) = 1 ∧
    getPix (plot8 bm w h cx cy x y) (cx - y) (cy - x) = 1 ∧
    getPix (plot8 bm w h cx cy x y) (cx + y) (cy - x) = 1 ∧
    getPix (plot8 bm w h cx cy x y) (cx + x) (cy - y) = 1 := by
  have hsh1 : Shape (setPix bm w h (cx + x) (cy + y)) w h :=
    shape_setPix _ _ _ _ _ hsh
  have hsh2 : Shape (setPix (setPix bm w h (cx + x) (cy + y)) w h
      (cx + y) (cy + x)) w h := shape_setPix _ _ _ _ _ hsh1
  have hsh3 : Shape (setPix (setPix (setPix bm w h (cx + x) (cy + y)) w h
      (cx + y) (cy + x)) w h (cx - y) (cy + x)) w h := shape_setPix _ _ _ _ _ hsh2
  have hsh4 : Shape (setPix (setPix (setPix (setPix bm w h (cx + x) (cy + y)) w h
      (cx + y) (cy + x)) w h (cx - y) (cy + x)) w h (cx - x) (cy + y)) w h :=
    shape_setPix _ _ _ _ _ hsh3
  have hsh5 : Shape (setPix (setPix (setPix (setPix (setPix bm w h
      (cx + x) (cy + y)) w h (cx + y) (cy + x)) w h (cx - y) (cy + x)) w h
      (cx - x) (cy + y)) w h (cx - x) (cy - y)) w h := shape_setPix _ _ _ _ _ hsh4
  have hsh6 : Shape (setPix (setPix (setPix (setPix (setPix (setPix bm w h
      (cx + x) (cy + y)) w h (cx + y) (cy + x)) w h (cx - y) (cy + x)) w h
      (cx - x) (cy + y)) w h (cx - x) (cy - y)) w h (cx - y) (cy - x)) w h :=
    shape_setPix _ _ _ _ _ hsh5
  have hsh7 : Shape (setPix (setPix (setPix (setPix (setPix (setPix (setPix bm w h
      (cx + x) (cy + y)) w h (cx + y) (cy + x)) w h (cx - y) (cy + x)) w h
      (cx - x) (cy + y)) w h (cx - x) (cy - y)) w h (cx - y) (cy - x)) w h
      (cx + y) (cy - x)) w h := shape_setPix _ _ _ _ _ hsh6
  unfold plot8
  refine ⟨?_, ?_, ?_, ?_, ?_, ?_, ?_, ?_⟩
  · apply getPix_setPix_mono
    apply getPix_setPix_mono
    apply getPix_setPix_mono
    apply getPix_setPix_mono
    apply getPix_setPix_mono
    apply getPix_setPix_mono
    apply getPix_setPix_mono
    exact getPix_setPix_self _ w h _ _ hsh (by omega) (by omega) (by omega) (by omega)
  · apply getPix_setPix_mono
    apply getPix_setPix_mono
    apply getPix_setPix_mono
    apply getPix_setPix_mono
    apply getPix_setPix_mono
    apply getPix_setPix_mono
    exact getPix_setPix_self _ w h _ _ hsh1 (by omega) (by omega) (by omega) (by omega)
  · apply getPix_setPix_mono
    apply getPix_setPix_mono
    apply getPix_setPix_mono
    apply getPix_setPix_mono
    apply getPix_setPix_mono
    exact getPix_setPix_self _ w h _ _ hsh2 (by omega) (by omega) (by omega) (by omega)
  · apply getPix_setPix_mono
    apply getPix_setPix_mono
    apply getPix_setPix_mono
    apply getPix_setPix_mono
    exact getPix_setPix_self _ w h _ _ hsh3 (by omega) (by omega) (by omega) (by omega)
  · apply getPix_setPix_mono
    apply getPix_setPix_mono
    apply getPix_setPix_mono
    exact getPix_setPix_self _ w h _ _ hsh4 (by omega) (by omega) (by omega) (by omega)
  · apply getPix_setPix_mono
    apply getPix_setPix_mono
    exact getPix_setPix_self _ w h _ _ hsh5 (by omega) (by omega) (by omega) (by omega)
  · apply getPix_setPix_mono
    exact getPix_setPix_self _ w h _ _ hsh6 (by omega) (by omega) (by omega) (by omega)
  · exact getPix_setPix_self _ w h _ _ hsh7 (by omega) (by omega) (by omega) (by omega)

/-- A pixel found set after the eight octant plots is one of the eight
octant points or was already set. -/
theorem getPix_plot8_cases (bm : List (List Nat)) (w h : Nat) (cx cy x y a b : Int)
    (hres : getPix (plot8 bm w h cx cy x y) a b = 1) :
    ((a = cx + x ∧ b = cy + y) ∨ (a = cx + y ∧ b = cy + x) ∨
     (a = cx - y ∧ b = cy + x) ∨ (a = cx - x ∧ b = cy + y) ∨
     (a = cx - x ∧ b = cy - y) ∨ (a = cx - y ∧ b = cy - x) ∨
     (a = cx + y ∧ b = cy - x) ∨ (a = cx + x ∧ b = cy - y)) ∨
    getPix bm a b = 1 := by
  unfold plot8 at hres
  rcases getPix_setPix_cases _ _ _ _ _ _ _ hres with hp | hres
  · exact Or.inl (Or.inr (Or.inr (Or.inr (Or.inr (Or.inr (Or.inr (Or.inr hp)))))))
  rcases getPix_setPix_cases _ _ _ _ _ _ _ hres with hp | hres
  · exact Or.inl (Or.inr (Or.inr (Or.inr (Or.inr (Or.inr (Or.inr (Or.inl hp)))))))
  rcases getPix_setPix_cases _ _ _ _ _ _ _ hres with hp | hres
  · exact Or.inl (Or.inr (Or.inr (Or.inr (Or.inr (Or.inr (Or.inl hp))))))
  rcases getPix_setPix_cases _ _ _ _ _ _ _ hres with hp | hres
  · exact Or.inl (Or.inr (Or.inr (Or.inr (Or.inr (Or.inl hp)))))
  rcases getPix_setPix_cases _ _ _ _ _ _ _ hres with hp | hres
  · exact Or.inl (Or.inr (Or.inr (Or.inr (Or.inl hp))))
  rcases getPix_setPix_cases _ _ _ _ _ _ _ hres with hp | hres
  · exact Or.inl (Or.inr (Or.inr (Or.inl hp)))
  rcases getPix_setPix_cases _ _ _ _ _ _ _ hres with hp | hres
  · exact Or.inl (Or.inr (Or.inl hp))
  rcases getPix_setPix_cases _ _ _ _ _ _ _ hres with hp | hres
  · exact Or.inl (Or.inl hp)
  · exact Or.inr hres

/-- The pixel set of a buffer is closed under the four quadrant
reflections about the centre `(cx, cy)`. -/
def SymAt (bm : List (List Nat)) (cx cy : Int) : Prop :=
  ∀ dx dy : Int, getPix bm (cx + dx) (cy + dy) = 1 →
    getPix bm (cx - dx) (cy + dy) = 1 ∧ getPix bm (cx + dx) (cy - dy) = 1 ∧
    getPix bm (cx - dx) (cy - dy) = 1

/-- A helper for transporting a set-pixel fact along coordinate
identities. -/
theorem getPix_congr (bm : List (List Nat)) (a b a2 b2 : Int)
    (ha : a = a2) (hb : b = b2) (hp : getPix bm a2 b2 = 1) :
    getPix bm a b = 1 := by
  rw [ha, hb]
  exact hp

/-- One iteration of octant plots preserves quadrant symmetry: the eight
points form a reflection-closed set, and silently clipped points do not
arise because the whole circle fits on the canvas. -/
theorem symAt_plot8 (bm : List (List Nat)) (w h : Nat) (cx cy x y r : Int)
    (hsh : Shape bm w h) (hsym : SymAt bm cx cy)
    (hy0 : 0 ≤ y) (hyx : y ≤ x) (hxr : x ≤ r)
    (hcx1 : r ≤ cx) (hcx2 : cx + r < (w : Int))
    (hcy1 : r ≤ cy) (hcy2 : cy + r < (h : Int)) :
    SymAt (plot8 bm w h cx cy x y) cx cy := by
  intro dx dy hset
  obtain ⟨s1, s2, s3, s4, s5, s6, s7, s8⟩ :=
    getPix_plot8_sets bm w h cx cy x y r hsh hy0 hyx hxr hcx1 hcx2 hcy1 hcy2
  rcases getPix_plot8_cases bm w h cx cy x y _ _ hset with hpt | hold
  · rcases hpt with ⟨h1, h2⟩ | ⟨h1, h2⟩ | ⟨h1, h2⟩ | ⟨h1, h2⟩ |
      ⟨h1, h2⟩ | ⟨h1, h2⟩ | ⟨h1, h2⟩ | ⟨h1, h2⟩
    · exact ⟨getPix_congr _ _ _ _ _ (by omega) (by omega) s4,
        getPix_congr _ _ _ _ _ (by omega) (by omega) s8,
        getPix_congr _ _ _ _ _ (by omega) (by omega) s5⟩
    · exact ⟨getPix_congr _ _ _ _ _ (by omega) (by omega) s3,
        getPix_congr _ _ _ _ _ (by omega) (by omega) s7,
        getPix_congr _ _ _ _ _ (by omega) (by omega) s6⟩
    · exact ⟨getPix_congr _ _ _ _ _ (by omega) (by omega) s2,
        getPix_congr _ _ _ _ _ (by omega) (by omega) s6,
        getPix_congr _ _ _ _ _ (by omega) (by omega) s7⟩
    · exact ⟨getPix_congr _ _ _ _ _ (by omega) (by omega) s1,
        getPix_congr _ _ _ _ _ (by omega) (by omega) s5,
        getPix_congr _ _ _ _ _ (by omega) (by omega) s8⟩
    · exact ⟨getPix_congr _ _ _ _ _ (by omega) (by omega) s8,
        getPix_congr _ _ _ _ _ (by omega) (by omega) s4,
        getPix_congr _ _ _ _ _ (by omega) (by omega) s1⟩
    · exact ⟨getPix_congr _ _ _ _ _ (by omega) (by omega) s7,
        getPix_congr _ _ _ _ _ (by omega) (by omega) s3,
        getPix_congr _ _ _ _ _ (by omega) (by omega) s2⟩
    · exact ⟨getPix_congr _ _ _ _ _ (by omega) (by omega) s6,
        getPix_congr _ _ _ _ _ (by omega) (by omega) s2,
        getPix_congr _ _ _ _ _ (by omega) (by omega) s3⟩
    · exact ⟨getPix_congr _ _ _ _ _ (by omega) (by omega) s5,
        getPix_congr _ _ _ _ _ (by omega) (by omega) s1,
        getPix_congr _ _ _ _ _ (by omega) (by omega) s4⟩
  · obtain ⟨ha, hb, hc⟩ := hsym dx dy hold
    exact ⟨getPix_plot8_mono _ _ _ _ _ _ _ _ _ ha,
      getPix_plot8_mono _ _ _ _ _ _ _ _ _ hb,
      getPix_plot8_mono _ _ _ _ _ _ _ _ _ hc⟩

/-- The circle loop preserves shape and quadrant symmetry as long as the
octant state stays inside `0 ≤ y` and `x ≤ r` (which the loop maintains)
and the circle of radius `r` fits on the canvas. -/
theorem circleLoop_symAt (cx cy : Int) (w h : Nat) (r : Int)
    (hcx1 : r ≤ cx) (hcx2 : cx + r < (w : Int))
    (hcy1 : r ≤ cy) (hcy2 : cy + r < (h : Int)) :
    ∀ (fuel : Nat) (bm : List (List Nat)) (x y d : Int),
      Shape bm w h → SymAt bm cx cy → 0 ≤ y → x ≤ r →
      Shape (circleLoop fuel bm cx cy w h x y d) w h ∧
      SymAt (circleLoop fuel bm cx cy w h x y d) cx cy := by
  intro fuel
  induction fuel with
  | zero =>
    intro bm x y d hsh hsym hy hx
    exact ⟨hsh, hsym⟩
  | succ fuel ih =>
    intro bm x y d hsh hsym hy hx
    simp only [circleLoop]
    by_cases hyx : y ≤ x
    · rw [if_pos hyx]
      have hsh1 := shape_plot8 bm w h cx cy x y hsh
      have hsym1 := symAt_plot8 bm w h cx cy x y r hsh hsym hy hyx hx
        hcx1 hcx2 hcy1 hcy2
      by_cases hd : d < 0
      · rw [if_pos hd]
        exact ih _ _ _ _ hsh1 hsym1 (by omega) hx
      · rw [if_neg hd]
        exact ih _ _ _ _ hsh1 hsym1 (by omega) (by omega)
    · rw [if_neg hyx]
      exact ⟨hsh, hsym⟩

/-- The all-zero buffer is well shaped. -/
theorem shape_zeroBm (w h : Nat) : Shape (zeroBm w h) w h := by
  refine ⟨by simp [zeroBm], ?_⟩
  intro row hrow
  rw [List.eq_of_mem_replicate hrow]
  simp

/-- Reading a replicated list. -/
theorem getD_replicate_self {α : Type} (n i : Nat) (c d : α) :
    (List.replicate n c).getD i d = if i < n then c else d := by
  rw [List.getD_eq_getElem?_getD, List.getElem?_replicate]
  split_ifs <;> rfl

/-- Every pixel of the all-zero buffer reads 0. -/
theorem getPix_zeroBm (w h : Nat) (a b : Int) : getPix (zeroBm w h) a b = 0 := by
  unfold getPix zeroBm
  split_ifs with hab
  · rw [getD_replicate_self]
    split_ifs with hb
    · rw [getD_replicate_self]
      split_ifs with ha
      · rfl
      · rfl
    · rfl
  · rfl

/-- The all-zero buffer is trivially quadrant symmetric. -/
theorem symAt_zeroBm (w h : Nat) (cx cy : Int) : SymAt (zeroBm w h) cx cy := by
  intro dx dy hset
  rw [getPix_zeroBm] at hset
  cases hset

/-- Claim C9: when the circle of radius `r ≥ 0` centred at `(cx, cy)`
fits on the `w` by `h` canvas, the pixel set produced by
`draw_graphic_circle` on the all-zero buffer is symmetric under all four
quadrant reflections about the centre: any set pixel `(cx+dx, cy+dy)`
comes with `(cx-dx, cy+dy)`, `(cx+dx, cy-dy)` and `(cx-dx, cy-dy)`. -/
theorem C9_circle_quadrant_symmetry (w h : Nat) (cx cy r : Int)
    (hr : 0 ≤ r) (hcx1 : r ≤ cx) (hcx2 : cx + r < (w : Int))
    (hcy1 : r ≤ cy) (hcy2 : cy + r < (h : Int)) (dx dy : Int)
    (hset : getPix (draw_graphic_circle (zeroBm w h) cx cy r w h)
      (cx + dx) (cy + dy) = 1) :
    getPix (draw_graphic_circle (zeroBm w h) cx cy r w h) (cx - dx) (cy + dy) = 1 ∧
    getPix (draw_graphic_circle (zeroBm w h) cx cy r w h) (cx + dx) (cy - dy) = 1 ∧
    getPix (draw_graphic_circle (zeroBm w h) cx cy r w h) (cx - dx) (cy - dy) = 1 := by
  have hmain := (circleLoop_symAt cx cy w h r hcx1 hcx2 hcy1 hcy2
    (r.toNat + 2) (zeroBm w h) r 0 (1 - r)
    (shape_zeroBm w h) (symAt_zeroBm w h cx cy) le_rfl le_rfl).2
  unfold draw_graphic_circle at hset ⊢
  exact hmain dx dy hset

/-- Claim C9 (witness): the radius-2 circle centred at (3, 3) on a 7 by
7 canvas sets (5, 3), and its three reflections are set as well. -/
theorem C9_circle_symmetry_witness :
    getPix (draw_graphic_circle (zeroBm 7 7) 3 3 2 7 7) (3 - 2) (3 + 0) = 1 ∧
    getPix (draw_graphic_circle (zeroBm 7 7) 3 3 2 7 7) (3 + 2) (3 - 0) = 1 ∧
    getPix (draw_graphic_circle (zeroBm 7 7) 3 3 2 7 7) (3 - 2) (3 - 0) = 1 :=
  C9_circle_quadrant_symmetry 7 7 3 3 2 (by decide) (by decide) (by decide)
    (by decide) (by decide) 2 0 (by decide)

/-- Claim C7 (counterexample): after `define_base_window(1)` switches to
the extended 256-wide base window, the claim says x up to 280 is
accepted, but `set_cursor_position(280, 0)` still raises
`InvalidParameter` — the method checks x against the fixed range 0–255
and never consults the base-window mode. -/
theorem C7_cursor_x280_rejected_in_extended_mode :
    ∃ g fr, define_base_window 1 = .ok (g, fr) ∧ g.width = 256 ∧
      set_cursor_position g 280 0 = .error .invalidParameter := by
  refine ⟨⟨256, 32⟩, [0x1F, 0x28, 0x77, 0x10, 1], by decide, rfl, by decide⟩

/-- Claim C7 (amended): `set_cursor_position(x, y)` raises
`InvalidParameter` exactly when x is outside 0–255 or y is outside 0–3,
independently of the base-window mode held in the driver state; in
particular (300, 0) raises. -/
theorem C7_set_cursor_position_error_iff (g : DisplayGeom) (x y : Int) :
    (set_cursor_position g x y = .error .invalidParameter ↔
      (x < 0 ∨ 255 < x ∨ y < 0 ∨ 3 < y)) ∧
    set_cursor_position g 300 0 = .error .invalidParameter := by
  unfold set_cursor_position
  constructor
  · split_ifs with h1 h2 <;> simp_all <;> omega
  · norm_num

/-- The floor of an integer-valued rational is that integer. -/
theorem ratFloor_intCast (n : Int) : ((n : ℚ)).floor = n := by
  simp [Rat.floor, Rat.den_intCast, Rat.num_intCast]

/-- `round` of an exactly integer value is that integer. -/
theorem pyRound_intCast (n : Int) : pyRound (n : ℚ) = n := by
  unfold pyRound
  rw [ratFloor_intCast]
  norm_num

/-- The horizontal walk of the axis-aligned example line: step `i` of a
line starting at `x0 = 0` with direction cosine 1 lands on column `i`. -/
theorem pyRound_step_one (i : Nat) :
    pyRound (((0 : Int) : ℚ) + 1 * (i : ℚ)) = (i : Int) := by
  have hc : (((0 : Int) : ℚ) + 1 * (i : ℚ)) = ((i : Int) : ℚ) := by
    push_cast
    ring
  rw [hc, pyRound_intCast]

/-- The vertical walk of the axis-aligned example line: step `i` of a
line starting at `y0 = 0` with direction sine 0 stays on row 0. -/
theorem pyRound_step_zero (i : Nat) :
    pyRound (((0 : Int) : ℚ) + 0 * (i : ℚ)) = (0 : Int) := by
  have hc : (((0 : Int) : ℚ) + 0 * (i : ℚ)) = (((0 : Int)) : ℚ) := by
    push_cast
    ring
  rw [hc, pyRound_intCast]

/-- Claim C10: drawing the single line spec (x0 = 0, y0 = 0, angle 0
degrees — direction (cos, -sin) = (1, 0) — length 5) on the 10 by 10
all-zero bitmap sets exactly the five pixels of row 0, columns 0-4, and
leaves every other cell 0. -/
theorem C10_draw_lines_horizontal_example :
    draw_graphic_lines (zeroBm 10 10) [(0, 0, 1, 0, 5)] 10 10 =
      [1, 1, 1, 1, 1, 0, 0, 0, 0, 0] :: List.replicate 9 (List.replicate 10 0) := by
  simp only [draw_graphic_lines, List.foldl_cons, List.foldl_nil,
    show List.range 5 = [0, 1, 2, 3, 4] from rfl]
  simp only [pyRound_step_one, pyRound_step_zero]
  decide

end NAGP1250
